import Mathlib

/-!
Formal model of `swizzle.c`, a tool that reorders the address and data bits of a
ROM image.  The C source is embedded shallowly: machine integers become `Nat`
(with explicit `% 256` where `unsigned char` truncates), the permutation-spec
parser becomes a structural recursion over the token list, and the word loop of
the driver becomes a fold over word indices.  Shift and or operations on C
integers are modelled by the corresponding unbounded `Nat` operations; for every
well-defined execution of the tool the C values fit the machine word, so the
models agree with the source bit for bit.
-/

/-- Axis of a permutation spec; the C code passes the strings "address" and
"data" as the `type` argument of `parseBits`. -/
inductive Axis where
  | address
  | data
deriving DecidableEq

/-- Digit accumulator of C `atoi`: consumes leading decimal digits. -/
def atoiDigits : List Char → Nat → Nat
  | c :: rest, acc => if c.isDigit then atoiDigits rest (acc * 10 + (c.toNat - 48)) else acc
  | [], acc => acc

/-- Model of C `atoi`: skip leading whitespace, optional sign, then the leading
run of digits (value 0 when there is none). -/
def atoi (cs : List Char) : Int :=
  let cs := cs.dropWhile (fun c => c == ' ' || c == '\t' || c == '\n' || c == '\r')
  match cs with
  | '-' :: rest => - (atoiDigits rest 0 : Int)
  | '+' :: rest => (atoiDigits rest 0 : Int)
  | _ => (atoiDigits cs 0 : Int)

/-- Model of repeated `strtok(s, ",")`: the maximal runs of non-separator
characters, so consecutive or leading/trailing commas yield no empty tokens.
The second argument accumulates the current (reversed) token. -/
def tokenizeAux (sep : Char) : List Char → List Char → List (List Char)
  | [], cur => if cur.isEmpty then [] else [cur.reverse]
  | c :: rest, cur =>
    if c = sep then
      if cur.isEmpty then tokenizeAux sep rest []
      else cur.reverse :: tokenizeAux sep rest []
    else tokenizeAux sep rest (c :: cur)

/-- The integer tokens `parseBits` sees for a given spec string: `strtok` on
commas followed by `atoi` on each token. -/
def specTokens (s : String) : List Int :=
  (tokenizeAux ',' s.data []).map atoi

/-- Fatal outcomes of `parseBits` (the C code prints and exits).  The fields
mirror the `printf` arguments: the axis, the offending index and the upper end
`count - 1` of the valid range for `outOfRange`; for `countMismatch` the
expected count, the axis and the number of tokens found (`count - pos`). -/
inductive ParseError where
  | outOfRange (axis : Axis) (index : Int) (hi : Int)
  | countMismatch (expected : Int) (axis : Axis) (found : Int)
deriving DecidableEq

/-- Outcome of `parseBits`: the destination table as left at the moment the
function returns or the process aborts, the indices reported by duplicate
warnings (in emission order), and the fatal error, if any. -/
structure ParseResult where
  table : List Int
  dups : List Int
  err : Option ParseError
deriving DecidableEq

/-- Loop of `parseBits`.  State: remaining tokens, the decrementing position
counter `pos` (a C `int`, so it may go negative when too many tokens are
supplied), the destination table, the `bitsFound` bitmask of seen indices, and
the accumulated (reversed) duplicate warnings.  Each token is stored at
`dest[pos - 1]` when `pos > 0`, then range-checked (out of range aborts), then
checked against the bitmask for the duplicate warning. -/
def parseBitsLoop (axis : Axis) (count : Nat) :
    List Int → Int → List Int → Nat → List Int → ParseResult
  | [], pos, dest, _, dups =>
    { table := dest
      dups := dups.reverse
      err := if pos = 0 then none
             else some (ParseError.countMismatch count axis (count - pos)) }
  | index :: rest, pos, dest, bitsFound, dups =>
    let dest := if 0 < pos then dest.set (pos - 1).toNat index else dest
    if index < 0 ∨ (count : Int) ≤ index then
      { table := dest
        dups := dups.reverse
        err := some (ParseError.outOfRange axis index ((count : Int) - 1)) }
    else
      parseBitsLoop axis count rest (pos - 1) dest (bitsFound ||| (1 <<< index.toNat))
        (if bitsFound &&& (1 <<< index.toNat) ≠ 0 then index :: dups else dups)

/-- Model of `parseBits(bits, dest, count, type)`: the token list stands for the
`strtok`/`atoi` traversal of the spec string (see `specTokens`), `dest` is the
caller's table (a 32-entry zero-initialised array in `swizzle`). -/
def parseBits (axis : Axis) (tokens : List Int) (dest : List Int) (count : Nat) : ParseResult :=
  parseBitsLoop axis count tokens count dest 0 []

/-- Model of `swizzleWord(word, bits, count)`: for each destination bit
`i < count` the source bit `bits[i]` of `word` is masked out and shifted into
position `i`; the C loop ORs the contributions in ascending `i`. -/
def swizzleWord (word : Nat) (bits : List Nat) : Nat → Nat
  | 0 => 0
  | i + 1 =>
    swizzleWord word bits i |||
      (if i ≤ bits.getD i 0 then (word &&& (1 <<< bits.getD i 0)) >>> (bits.getD i 0 - i)
       else (word &&& (1 <<< bits.getD i 0)) <<< (i - bits.getD i 0))

/-- Fuel-driven floor base-2 logarithm, the model of `(int)log2(n)` on positive
integer arguments (64 bits of fuel covers every C `long`).  For `n = 0` the C
expression casts `-inf` to `int`; the driver rejects that case through the
address-width check, and the model returns 0, which that check rejects too. -/
def intLog2Aux : Nat → Nat → Nat
  | 0, _ => 0
  | fuel + 1, n => if 2 ≤ n then intLog2Aux fuel (n / 2) + 1 else 0

/-- Model of `(int)log2(inSize / bytesPerWord)`. -/
def intLog2 (n : Nat) : Nat := intLog2Aux 64 n

/-- The bit-smear round-up of `swizzle` (lines 130-135): `n |= n >> 1; ...;
n |= n >> 16; n++`.  The shifts stop at 16, exactly as in the C code, so the
smear fills at most the low 32 bits. -/
def roundPow2 (n : Nat) : Nat :=
  let n1 := n ||| (n >>> 1)
  let n2 := n1 ||| (n1 >>> 2)
  let n3 := n2 ||| (n2 >>> 4)
  let n4 := n3 ||| (n3 >>> 8)
  let n5 := n4 ||| (n4 >>> 16)
  n5 + 1

/-- `x & ~m` on a two's-complement machine, for nonnegative `x`: removes from
`x` the bits it shares with `m`. -/
def andNot (x m : Nat) : Nat := x - (x &&& m)

/-- Working size after the power-of-two stage (lines 126-136): rounded only
when an address spec is present and the size is not already a power of two. -/
def sizeAfterPow2 (addrActive : Bool) (fileSize : Nat) : Nat :=
  if addrActive ∧ fileSize &&& (fileSize - 1) ≠ 0 then roundPow2 fileSize else fileSize

/-- Working size after the word-alignment stage (lines 137-142):
`inSize += bpw - 1; inSize &= ~(bpw - 1)` — a round-up that is correct only
when `bpw` is a power of two. -/
def sizeAligned (bpw n : Nat) : Nat :=
  if n % bpw ≠ 0 then andNot (n + (bpw - 1)) (bpw - 1) else n

/-- Byte `i` of a word value as the output loops store it (lines 186-191); the
`unsigned char` assignment truncates mod 256. -/
def wordByte (big : Bool) (bpw : Nat) (data : Nat) (i : Nat) : Nat :=
  (data >>> (8 * (if big then bpw - i - 1 else i))) % 256

/-- Word value assembled from `bpw` consecutive input bytes starting at `pos`
(lines 175-181); reads beyond the buffer yield the `calloc` default 0. -/
def assembleWord (big : Bool) (bpw : Nat) (inData : List Nat) (pos : Nat) : Nat :=
  (List.range bpw).foldl
    (fun data i =>
      data ||| ((inData.getD (pos + i) 0) <<< (8 * (if big then bpw - i - 1 else i)))) 0

/-- Destination byte offset of the word at byte position `pos` (lines 171-173). -/
def destAddr (addrTable : Option (List Nat)) (bpw nab : Nat) (pos : Nat) : Nat :=
  match addrTable with
  | some t => bpw * swizzleWord (pos / bpw) t nab
  | none => pos

/-- The data permutation, applied only when a data table is present
(lines 183-184). -/
def permWord (dataTable : Option (List Nat)) (ndb : Nat) (data : Nat) : Nat :=
  match dataTable with
  | some t => swizzleWord data t ndb
  | none => data

/-- Store the low `k` bytes of `data` at `addr`, ascending as the C loops do;
stores past the end of the buffer are dropped, since only the first `inSize`
bytes of the output buffer are ever written to the file. -/
def writeWordAux (big : Bool) (bpw : Nat) (data addr : Nat) : Nat → List Nat → List Nat
  | 0, buf => buf
  | i + 1, buf => (writeWordAux big bpw data addr i buf).set (addr + i) (wordByte big bpw data i)

/-- Store all `bpw` bytes of `data` at `addr` (lines 186-191). -/
def writeWord (big : Bool) (bpw : Nat) (buf : List Nat) (addr data : Nat) : List Nat :=
  writeWordAux big bpw data addr bpw buf

/-- Body of the transform loop for word index `w`, i.e. `pos = bpw * w`
(lines 169-192). -/
def transformStep (addrTable dataTable : Option (List Nat)) (bpw nab ndb : Nat) (big : Bool)
    (inData : List Nat) (buf : List Nat) (w : Nat) : List Nat :=
  writeWord big bpw buf (destAddr addrTable bpw nab (bpw * w))
    (permWord dataTable ndb (assembleWord big bpw inData (bpw * w)))

/-- The whole transform loop (lines 169-192): the positions
`0, bpw, 2*bpw, ... < inSize` are the word indices below `⌈inSize / bpw⌉`; the
output buffer starts zeroed (`calloc`). -/
def swizzleTransform (addrTable dataTable : Option (List Nat)) (bpw nab ndb : Nat) (big : Bool)
    (inSize : Nat) (inData : List Nat) : List Nat :=
  (List.range ((inSize + bpw - 1) / bpw)).foldl
    (transformStep addrTable dataTable bpw nab ndb big inData) (List.replicate inSize 0)

/-- The configuration record `swizzle_t` (paths omitted: file I/O is outside
the model, the input bytes are passed to `swizzleRun` directly). -/
structure swizzle_t where
  addrBits : Option String
  dataBits : Option String
  bytesPerWord : Nat
  bigEndian : Bool

/-- The non-fatal diagnostics the driver can emit, in the order of the
`fprintf` calls. -/
inductive SwizzleWarning where
  | nonPowerOfTwoSize (size : Nat)
  | unalignedSize (bpw : Nat)
  | duplicateIndex (axis : Axis) (index : Int)
deriving DecidableEq

/-- The fatal outcomes of the modelled part of `swizzle` (file and allocation
failures are outside the model). -/
inductive SwizzleError where
  | addrWidth
  | parseFail (e : ParseError)
deriving DecidableEq

/-- Result of a successful run: the `inSize` output bytes and the warnings in
emission order. -/
structure SwizzleOutput where
  output : List Nat
  warnings : List SwizzleWarning
deriving DecidableEq

/-- Equality of run outcomes is decidable, so concrete runs can be checked by
evaluation. -/
instance {ε α : Type} [DecidableEq ε] [DecidableEq α] : DecidableEq (Except ε α) := fun a b =>
  match a, b with
  | Except.ok x, Except.ok y =>
    if h : x = y then isTrue (by rw [h]) else isFalse (by intro hc; cases hc; exact h rfl)
  | Except.error x, Except.error y =>
    if h : x = y then isTrue (by rw [h]) else isFalse (by intro hc; cases hc; exact h rfl)
  | Except.ok _, Except.error _ => isFalse (by intro hc; cases hc)
  | Except.error _, Except.ok _ => isFalse (by intro hc; cases hc)

/-- The input buffer: `calloc(inSize, 1)` followed by `fread` of the original
file contents, i.e. the input bytes padded with zeros up to `inSize`. -/
def paddedInput (input : List Nat) (inSize : Nat) : List Nat :=
  input ++ List.replicate (inSize - input.length) 0

/-- Model of the driver `swizzle(opts)` on the given input bytes: size the
working buffer (power-of-two stage, then word alignment), check the address
width, parse the address table and then the data table, transform, and return
the output bytes together with the warnings in emission order. -/
def swizzleRun (opts : swizzle_t) (input : List Nat) : Except SwizzleError SwizzleOutput :=
  let fileSize := input.length
  let size1 := sizeAfterPow2 opts.addrBits.isSome fileSize
  let pow2Warn : List SwizzleWarning :=
    if opts.addrBits.isSome ∧ fileSize &&& (fileSize - 1) ≠ 0 then
      [SwizzleWarning.nonPowerOfTwoSize fileSize]
    else []
  let inSize := sizeAligned opts.bytesPerWord size1
  let alignWarn : List SwizzleWarning :=
    if size1 % opts.bytesPerWord ≠ 0 then [SwizzleWarning.unalignedSize opts.bytesPerWord]
    else []
  let numAddrBits := intLog2 (inSize / opts.bytesPerWord)
  let numDataBits := 8 * opts.bytesPerWord
  if numAddrBits < 1 ∨ 32 < numAddrBits then Except.error SwizzleError.addrWidth
  else
    let addrParse := opts.addrBits.map fun s =>
      parseBits Axis.address (specTokens s) (List.replicate 32 0) numAddrBits
    let dataParse := opts.dataBits.map fun s =>
      parseBits Axis.data (specTokens s) (List.replicate 32 0) numDataBits
    match (addrParse.bind fun r => r.err), (dataParse.bind fun r => r.err) with
    | some e, _ => Except.error (SwizzleError.parseFail e)
    | none, some e => Except.error (SwizzleError.parseFail e)
    | none, none =>
      let addrTable := addrParse.map fun r => r.table.map Int.toNat
      let dataTable := dataParse.map fun r => r.table.map Int.toNat
      let dupWarns :=
        (addrParse.elim [] fun r => r.dups.map (SwizzleWarning.duplicateIndex Axis.address)) ++
        (dataParse.elim [] fun r => r.dups.map (SwizzleWarning.duplicateIndex Axis.data))
      Except.ok
        { output := swizzleTransform addrTable dataTable opts.bytesPerWord numAddrBits
            numDataBits opts.bigEndian inSize (paddedInput input inSize)
          warnings := pow2Warn ++ alignWarn ++ dupWarns }

/-! ## Bit-level characterisation of `swizzleWord` -/

/-- Each loop iteration of `swizzleWord` contributes exactly the source bit
`bits[i]` of the input, placed at destination position `i`. -/
theorem swizzleWord_testBit (word : Nat) (bits : List Nat) (count : Nat) (j : Nat) :
    (swizzleWord word bits count).testBit j
      = (decide (j < count) && word.testBit (bits.getD j 0)) := by
  induction count with
  | zero => simp [swizzleWord, Nat.zero_testBit]
  | succ i ih =>
    have hcontrib :
        (if i ≤ bits.getD i 0 then
            (word &&& (1 <<< bits.getD i 0)) >>> (bits.getD i 0 - i)
          else (word &&& (1 <<< bits.getD i 0)) <<< (i - bits.getD i 0)).testBit j
          = (decide (j = i) && word.testBit (bits.getD i 0)) := by
      set b := bits.getD i 0 with hb
      by_cases hbi : i ≤ b
      · rw [if_pos hbi, Nat.testBit_shiftRight, Nat.one_shiftLeft, Nat.testBit_and,
          Nat.testBit_two_pow]
        by_cases hji : j = i
        · subst hji
          simp [Nat.sub_add_cancel hbi]
        · have : ¬ b = b - i + j := by omega
          simp [hji, this]
      · rw [if_neg hbi, Nat.testBit_shiftLeft, Nat.one_shiftLeft, Nat.testBit_and,
          Nat.testBit_two_pow]
        by_cases hji : j = i
        · have h2 : i - (i - b) = b := by omega
          simp [hji, h2, Nat.sub_le]
        · by_cases hge : j ≥ i - b
          · have hne : ¬ b = j - (i - b) := by omega
            simp [hji, hge, hne]
          · simp [hji, hge]
    show (swizzleWord word bits i ||| _).testBit j = _
    rw [Nat.testBit_lor, ih, hcontrib]
    rcases Nat.lt_trichotomy j i with h | h | h
    · have h1 : j < i + 1 := by omega
      have h2 : j ≠ i := by omega
      simp [h, h1, h2]
    · subst h
      simp
    · have h1 : ¬ j < i := by omega
      have h2 : ¬ j < i + 1 := by omega
      have h3 : j ≠ i := by omega
      simp [h1, h2, h3]

/-- The gather never sets a bit at or above `count`. -/
theorem swizzleWord_lt_two_pow (word : Nat) (bits : List Nat) (count : Nat) :
    swizzleWord word bits count < 2 ^ count := by
  refine Nat.lt_pow_two_of_testBit _ fun i hi => ?_
  rw [swizzleWord_testBit]
  simp [Nat.not_lt.mpr hi]

/-- C2: for every table and input word, `swizzleWord` returns the value whose
bit `i`, for `i < count`, is bit `table[i]` of the input (the right shift by
`table[i] - i` or left shift by `i - table[i]` of the masked source bit), and
whose bits at positions `count` and above are clear. -/
theorem c2_swizzleWord_gathers (word : Nat) (bits : List Nat) (count : Nat) :
    swizzleWord word bits count < 2 ^ count ∧
      ∀ i, i < count →
        (swizzleWord word bits count).testBit i = word.testBit (bits.getD i 0) := by
  refine ⟨swizzleWord_lt_two_pow word bits count, fun i hi => ?_⟩
  rw [swizzleWord_testBit]
  simp [hi]

/-- Witness for C2: destination bit 0 of `swizzleWord 5 [1, 2, 0] 3` is source
bit 1 of the input 5, i.e. false. -/
theorem c2_swizzleWord_gathers_witness :
    (swizzleWord 5 [1, 2, 0] 3).testBit 0 = Nat.testBit 5 1 :=
  (c2_swizzleWord_gathers 5 [1, 2, 0] 3).2 0 (by decide)

/-- C4: gathering with a bijective table `T` and then with its inverse table
`Tinv` (the table with `Tinv[T[i]] = i`) reconstructs every value whose set
bits lie below `count`. -/
theorem c4_swizzleWord_involution (T Tinv : List Nat) (count : Nat) (v : Nat)
    (hT : ∀ i, i < count → T.getD i 0 < count)
    (hInj : ∀ i, i < count → ∀ j, j < count → T.getD i 0 = T.getD j 0 → i = j)
    (hInv : ∀ i, i < count → Tinv.getD (T.getD i 0) 0 = i)
    (hv : v < 2 ^ count) :
    swizzleWord (swizzleWord v T count) Tinv count = v := by
  refine Nat.eq_of_testBit_eq fun j => ?_
  rw [swizzleWord_testBit]
  by_cases hj : j < count
  · have hsurj : ∃ i, i < count ∧ T.getD i 0 = j := by
      let f : Fin count → Fin count := fun i => ⟨T.getD i 0, hT i i.isLt⟩
      have hf : Function.Injective f := by
        intro a b hab
        exact Fin.ext (hInj a a.isLt b b.isLt (congrArg Fin.val hab))
      obtain ⟨i, hi⟩ := (Finite.injective_iff_bijective.mp hf).2 ⟨j, hj⟩
      exact ⟨i, i.isLt, congrArg Fin.val hi⟩
    obtain ⟨i, hi, hTi⟩ := hsurj
    have hji : Tinv.getD j 0 = i := by rw [← hTi]; exact hInv i hi
    rw [decide_eq_true hj, Bool.true_and, hji, swizzleWord_testBit, hTi,
      decide_eq_true hi, Bool.true_and]
  · rw [decide_eq_false hj, Bool.false_and]
    have : v < 2 ^ j :=
      lt_of_lt_of_le hv (Nat.pow_le_pow_right (by omega) (Nat.le_of_not_lt hj))
    exact (Nat.testBit_eq_false_of_lt this).symm

/-- Witness for C4: the 3-bit rotation table `[1, 2, 0]` and its inverse
`[2, 0, 1]` cancel on the value 5. -/
theorem c4_swizzleWord_involution_witness :
    swizzleWord (swizzleWord 5 [1, 2, 0] 3) [2, 0, 1] 3 = 5 :=
  c4_swizzleWord_involution [1, 2, 0] [2, 0, 1] 3 5
    (by decide) (by decide) (by decide) (by decide)

/-! ## The output-buffer writes of the transform loop -/

/-- Storing a word's bytes does not change the buffer length. -/
theorem writeWordAux_length (big : Bool) (bpw data addr k : Nat) (buf : List Nat) :
    (writeWordAux big bpw data addr k buf).length = buf.length := by
  induction k with
  | zero => rfl
  | succ i ih => simp [writeWordAux, List.length_set, ih]

/-- Positions outside the written range `[addr, addr + k)` keep their value. -/
theorem writeWordAux_getD_ne (big : Bool) (bpw data addr k : Nat) (buf : List Nat) (j : Nat)
    (h : ∀ i, i < k → addr + i ≠ j) :
    (writeWordAux big bpw data addr k buf).getD j 0 = buf.getD j 0 := by
  induction k with
  | zero => rfl
  | succ m ih =>
    show ((writeWordAux big bpw data addr m buf).set (addr + m) _).getD j 0 = _
    rw [List.getD_eq_getElem?_getD, List.getElem?_set_ne (h m (by omega)),
      ← List.getD_eq_getElem?_getD]
    exact ih fun i hi => h i (by omega)

/-- Position `addr + i`, `i < k`, holds byte `i` of the stored word, provided
the whole range fits the buffer. -/
theorem writeWordAux_getD_eq (big : Bool) (bpw data addr : Nat) (k : Nat) (buf : List Nat)
    (i : Nat) (hi : i < k) (hlen : addr + k ≤ buf.length) :
    (writeWordAux big bpw data addr k buf).getD (addr + i) 0 = wordByte big bpw data i := by
  induction k with
  | zero => omega
  | succ m ih =>
    show ((writeWordAux big bpw data addr m buf).set (addr + m) _).getD (addr + i) 0 = _
    by_cases him : i = m
    · subst him
      have hlt : addr + i < (writeWordAux big bpw data addr i buf).length := by
        rw [writeWordAux_length]; omega
      rw [List.getD_eq_getElem?_getD, List.getElem?_set_self hlt, Option.getD_some]
    · rw [List.getD_eq_getElem?_getD, List.getElem?_set_ne (by omega),
        ← List.getD_eq_getElem?_getD]
      exact ih (by omega) (by omega)

/-- The transform loop does not change the buffer length. -/
theorem foldl_transformStep_length (addrT dataT : Option (List Nat)) (bpw nab ndb : Nat)
    (big : Bool) (inData : List Nat) (ws : List Nat) (buf : List Nat) :
    (ws.foldl (transformStep addrT dataT bpw nab ndb big inData) buf).length = buf.length := by
  induction ws generalizing buf with
  | nil => rfl
  | cons w rest ih =>
    rw [List.foldl_cons, ih]
    simp [transformStep, writeWord, writeWordAux_length]

/-- A position hit by none of the processed words keeps its value through the
transform loop. -/
theorem foldl_transformStep_getD_ne (addrT dataT : Option (List Nat)) (bpw nab ndb : Nat)
    (big : Bool) (inData : List Nat) (ws : List Nat) (buf : List Nat) (j : Nat)
    (h : ∀ w, w ∈ ws → ∀ i, i < bpw → destAddr addrT bpw nab (bpw * w) + i ≠ j) :
    (ws.foldl (transformStep addrT dataT bpw nab ndb big inData) buf).getD j 0
      = buf.getD j 0 := by
  induction ws generalizing buf with
  | nil => rfl
  | cons w rest ih =>
    rw [List.foldl_cons, ih _ fun w' hw' => h w' (List.mem_cons_of_mem _ hw')]
    exact writeWordAux_getD_ne _ _ _ _ _ _ _ fun i hi => h w (List.mem_cons_self _ _) i hi

/-- After the loop has processed a set of words containing `w` exactly once,
and no other processed word writes into `w`'s destination block, the block
holds the bytes of `w`'s (possibly data-permuted) word value. -/
theorem foldl_transformStep_getD_eq (addrT dataT : Option (List Nat)) (bpw nab ndb : Nat)
    (big : Bool) (inData : List Nat) (ws : List Nat) (buf : List Nat) (w : Nat)
    (hw : w ∈ ws) (hnd : ws.Nodup)
    (hdisj : ∀ w', w' ∈ ws → w' ≠ w → ∀ i i', i < bpw → i' < bpw →
      destAddr addrT bpw nab (bpw * w') + i' ≠ destAddr addrT bpw nab (bpw * w) + i)
    (hbound : destAddr addrT bpw nab (bpw * w) + bpw ≤ buf.length)
    (i : Nat) (hi : i < bpw) :
    (ws.foldl (transformStep addrT dataT bpw nab ndb big inData) buf).getD
        (destAddr addrT bpw nab (bpw * w) + i) 0
      = wordByte big bpw (permWord dataT ndb (assembleWord big bpw inData (bpw * w))) i := by
  induction ws generalizing buf with
  | nil => cases hw
  | cons w0 rest ih =>
    rw [List.foldl_cons]
    rcases List.mem_cons.mp hw with h0 | h0
    · subst h0
      have hnotin : w ∉ rest := (List.nodup_cons.mp hnd).1
      rw [foldl_transformStep_getD_ne _ _ _ _ _ _ _ _ _ _
        (fun w' hw' i' hi' =>
          hdisj w' (List.mem_cons_of_mem _ hw') (fun he => hnotin (he ▸ hw')) i i' hi hi')]
      show (writeWordAux big bpw _ _ bpw buf).getD _ 0 = _
      exact writeWordAux_getD_eq _ _ _ _ _ _ _ hi hbound
    · refine ih _ h0 (List.nodup_cons.mp hnd).2
        (fun w' hw' hne => hdisj w' (List.mem_cons_of_mem _ hw') hne) ?_
      show _ ≤ (writeWordAux big bpw _ _ bpw buf).length
      rw [writeWordAux_length]
      exact hbound

/-- Every destination offset is a whole word slot: a multiple of `bpw`. -/
theorem destAddr_eq_mul (addrT : Option (List Nat)) (bpw nab w : Nat) :
    ∃ a, destAddr addrT bpw nab (bpw * w) = bpw * a := by
  cases addrT with
  | none => exact ⟨w, rfl⟩
  | some t => exact ⟨swizzleWord (bpw * w / bpw) t nab, rfl⟩

/-- C1: for every word-aligned position `pos = bpw * w` in `[0, inSize)` (whole
words: `bpw` divides `inSize`), the loop stores — at the offset
`bpw * swizzleWord(pos / bpw, addrTable, nab)` when an address table is active
and at `pos` otherwise — the bytes, in the configured order, of the word
assembled from the input bytes at `pos`, passed through `swizzleWord` with the
data table when one is active and unchanged otherwise.  The destination
injectivity hypothesis rules out a later word overwriting the block, and the
geometry hypothesis `bpw * 2 ^ nab ≤ inSize` keeps permuted destinations inside
the buffer (the driver guarantees it, since `nab = ⌊log2 (inSize / bpw)⌋`). -/
theorem c1_transform_word (addrT dataT : Option (List Nat)) (bpw nab ndb : Nat)
    (big : Bool) (inSize : Nat) (inData : List Nat) (w : Nat)
    (hbpw : 0 < bpw) (hdvd : bpw ∣ inSize) (hw : bpw * (w + 1) ≤ inSize)
    (haddr : addrT.isSome = true → bpw * 2 ^ nab ≤ inSize)
    (hinj : ∀ w', bpw * (w' + 1) ≤ inSize → w' ≠ w →
      destAddr addrT bpw nab (bpw * w') ≠ destAddr addrT bpw nab (bpw * w))
    (i : Nat) (hi : i < bpw) :
    (swizzleTransform addrT dataT bpw nab ndb big inSize inData).getD
        (destAddr addrT bpw nab (bpw * w) + i) 0
      = wordByte big bpw (permWord dataT ndb (assembleWord big bpw inData (bpw * w))) i := by
  obtain ⟨q, hq⟩ := hdvd
  have hnw : (inSize + bpw - 1) / bpw = q := by
    subst hq
    rw [Nat.add_sub_assoc (by omega), Nat.mul_add_div hbpw, Nat.div_eq_of_lt (by omega)]
    omega
  have hwq : w < q := by
    have h1 : bpw * (w + 1) ≤ bpw * q := hq ▸ hw
    have := Nat.le_of_mul_le_mul_left h1 hbpw
    omega
  have hmem : w ∈ List.range ((inSize + bpw - 1) / bpw) := by
    rw [hnw, List.mem_range]; exact hwq
  have hblock : ∀ w', w' ∈ List.range ((inSize + bpw - 1) / bpw) → w' ≠ w →
      ∀ i2 i', i2 < bpw → i' < bpw →
      destAddr addrT bpw nab (bpw * w') + i' ≠ destAddr addrT bpw nab (bpw * w) + i2 := by
    intro w' hw' hne i2 i' hi2 hi' heq
    obtain ⟨a', ha'⟩ := destAddr_eq_mul addrT bpw nab w'
    obtain ⟨a, ha⟩ := destAddr_eq_mul addrT bpw nab w
    have hle : bpw * (w' + 1) ≤ inSize := by
      rw [hnw, List.mem_range] at hw'
      calc bpw * (w' + 1) ≤ bpw * q := Nat.mul_le_mul_left _ (by omega)
        _ = inSize := hq.symm
    have hdne := hinj w' hle hne
    rw [ha', ha] at heq hdne
    have haa : a' = a := by
      have h1 : (bpw * a' + i') / bpw = a' := by
        rw [Nat.mul_add_div hbpw, Nat.div_eq_of_lt hi']
        omega
      have h2 : (bpw * a + i2) / bpw = a := by
        rw [Nat.mul_add_div hbpw, Nat.div_eq_of_lt hi2]
        omega
      rw [← h1, ← h2, heq]
    exact hdne (by rw [haa])
  have hbound :
      destAddr addrT bpw nab (bpw * w) + bpw ≤ (List.replicate inSize (0 : Nat)).length := by
    rw [List.length_replicate]
    cases haT : addrT with
    | none =>
      show bpw * w + bpw ≤ inSize
      calc bpw * w + bpw = bpw * (w + 1) := by ring
        _ ≤ inSize := hw
    | some t =>
      show bpw * swizzleWord (bpw * w / bpw) t nab + bpw ≤ inSize
      have hsw := swizzleWord_lt_two_pow (bpw * w / bpw) t nab
      have h2 : bpw * 2 ^ nab ≤ inSize := haddr (by rw [haT]; rfl)
      calc bpw * swizzleWord (bpw * w / bpw) t nab + bpw
          = bpw * (swizzleWord (bpw * w / bpw) t nab + 1) := by ring
        _ ≤ bpw * 2 ^ nab := Nat.mul_le_mul_left _ (by omega)
        _ ≤ inSize := h2
  exact foldl_transformStep_getD_eq addrT dataT bpw nab ndb big inData _ _ w hmem
    (List.nodup_range _) hblock hbound i hi

/-- Witness for C1: a 4-byte image, one byte per word, with the 2-bit address
table `[1, 0]` (swap the two address lines); word 2 lands at offset 1. -/
theorem c1_transform_word_witness :
    (swizzleTransform (some [1, 0]) none 1 2 8 false 4 [1, 2, 3, 4]).getD
        (destAddr (some [1, 0]) 1 2 (1 * 2) + 0) 0
      = wordByte false 1 (permWord none 8 (assembleWord false 1 [1, 2, 3, 4] (1 * 2))) 0 :=
  c1_transform_word (some [1, 0]) none 1 2 8 false 4 [1, 2, 3, 4] 2
    (by decide) (by decide) (by decide) (fun _ => by decide)
    (by
      intro w' h1 h2
      have h3 : w' < 4 := by omega
      interval_cases w' <;> first | (exact absurd rfl h2) | decide)
    0 (by decide)

/-! ## Assembling and disassembling word values -/

/-- Bits of an OR-accumulation of shifted byte values: a bit of the result is a
bit of the accumulator or a bit of one of the shifted contributions. -/
theorem foldl_orShift_testBit (bytes : Nat → Nat) (e : Nat → Nat) (L : List Nat)
    (acc : Nat) (t : Nat) :
    ((L.foldl (fun data i => data ||| (bytes i <<< (8 * e i))) acc).testBit t = true)
      ↔ (acc.testBit t = true ∨
          ∃ i ∈ L, 8 * e i ≤ t ∧ (bytes i).testBit (t - 8 * e i) = true) := by
  induction L generalizing acc with
  | nil => simp
  | cons x rest ih =>
    rw [List.foldl_cons, ih]
    constructor
    · rintro (h | ⟨i, hi, hle, hbit⟩)
      · rw [Nat.testBit_lor, Bool.or_eq_true] at h
        rcases h with h | h
        · exact Or.inl h
        · rw [Nat.testBit_shiftLeft, Bool.and_eq_true, decide_eq_true_eq] at h
          exact Or.inr ⟨x, List.mem_cons_self _ _, h.1, h.2⟩
      · exact Or.inr ⟨i, List.mem_cons_of_mem _ hi, hle, hbit⟩
    · rintro (h | ⟨i, hi, hle, hbit⟩)
      · refine Or.inl ?_
        rw [Nat.testBit_lor, Bool.or_eq_true]
        exact Or.inl h
      · rcases List.mem_cons.mp hi with rfl | hi'
        · refine Or.inl ?_
          rw [Nat.testBit_lor, Bool.or_eq_true]
          refine Or.inr ?_
          rw [Nat.testBit_shiftLeft, Bool.and_eq_true, decide_eq_true_eq]
          exact ⟨hle, hbit⟩
        · exact Or.inr ⟨i, hi', hle, hbit⟩

/-- Bit `t` of the assembled word comes from the input byte whose slot covers
`t` in the configured byte order. -/
theorem assembleWord_testBit (big : Bool) (bpw : Nat) (inData : List Nat) (pos t : Nat) :
    ((assembleWord big bpw inData pos).testBit t = true)
      ↔ ∃ i ∈ List.range bpw, 8 * (if big then bpw - i - 1 else i) ≤ t ∧
          (inData.getD (pos + i) 0).testBit (t - 8 * (if big then bpw - i - 1 else i)) = true := by
  have h := foldl_orShift_testBit (fun i => inData.getD (pos + i) 0)
    (fun i => if big then bpw - i - 1 else i) (List.range bpw) 0 t
  simpa [assembleWord, Nat.zero_testBit] using h

/-- Round trip: byte `i` extracted from the word assembled at `pos` is the
input byte at `pos + i`, for bytes below 256 (the range of `unsigned char`). -/
theorem wordByte_assembleWord (big : Bool) (bpw : Nat) (inData : List Nat) (pos : Nat)
    (i : Nat) (hi : i < bpw) (hbytes : ∀ j, j < bpw → inData.getD (pos + j) 0 < 256) :
    wordByte big bpw (assembleWord big bpw inData pos) i = inData.getD (pos + i) 0 := by
  refine Nat.eq_of_testBit_eq fun t => ?_
  show ((assembleWord big bpw inData pos >>> (8 * (if big then bpw - i - 1 else i)))
      % 256).testBit t = _
  rw [show (256 : Nat) = 2 ^ 8 from rfl, Nat.testBit_mod_two_pow, Nat.testBit_shiftRight]
  by_cases ht : t < 8
  · rw [decide_eq_true ht, Bool.true_and]
    rw [Bool.eq_iff_iff, assembleWord_testBit]
    constructor
    · rintro ⟨j, hj, hle, hbit⟩
      have hjlt : j < bpw := List.mem_range.mp hj
      have hjb : inData.getD (pos + j) 0 < 256 := hbytes j hjlt
      have hlt8 : 8 * (if big then bpw - i - 1 else i) + t
          - 8 * (if big then bpw - j - 1 else j) < 8 := by
        by_contra hge
        have h28 : (2 : Nat) ^ 8 ≤ 2 ^ (8 * (if big then bpw - i - 1 else i) + t
            - 8 * (if big then bpw - j - 1 else j)) :=
          Nat.pow_le_pow_right (by omega) (by omega)
        rw [Nat.testBit_eq_false_of_lt (lt_of_lt_of_le hjb h28)] at hbit
        cases hbit
      have heq2 : (if big then bpw - j - 1 else j) = (if big then bpw - i - 1 else i) := by
        omega
      have hji : j = i := by
        cases big <;> simp at heq2 <;> omega
      rw [heq2] at hbit
      have hidx : 8 * (if big then bpw - i - 1 else i) + t
          - 8 * (if big then bpw - i - 1 else i) = t := by omega
      rw [hidx, hji] at hbit
      exact hbit
    · intro hbit
      refine ⟨i, List.mem_range.mpr hi, Nat.le_add_right _ _, ?_⟩
      rwa [Nat.add_sub_cancel_left]
  · rw [decide_eq_false ht, Bool.false_and]
    have h28 : (2 : Nat) ^ 8 ≤ 2 ^ t := Nat.pow_le_pow_right (by omega) (by omega)
    have : inData.getD (pos + i) 0 < 2 ^ t := lt_of_lt_of_le (hbytes i hi) h28
    exact (Nat.testBit_eq_false_of_lt this).symm

/-! ## Geometry helpers: logarithm, alignment, word indexing -/

/-- `intLog2Aux` is the floor logarithm when given enough fuel. -/
theorem intLog2Aux_bracket : ∀ (fuel n : Nat), 0 < n → n < 2 ^ fuel →
    2 ^ intLog2Aux fuel n ≤ n ∧ n < 2 ^ (intLog2Aux fuel n + 1) := by
  intro fuel
  induction fuel with
  | zero => intro n h0 h1; simp at h1; omega
  | succ f ih =>
    intro n h0 h1
    show 2 ^ (if 2 ≤ n then intLog2Aux f (n / 2) + 1 else 0) ≤ n ∧
      n < 2 ^ ((if 2 ≤ n then intLog2Aux f (n / 2) + 1 else 0) + 1)
    by_cases h2 : 2 ≤ n
    · rw [if_pos h2]
      have hp : (2 : Nat) ^ (f + 1) = 2 ^ f * 2 := pow_succ 2 f
      have hdiv : n / 2 < 2 ^ f := by omega
      obtain ⟨hl, hr⟩ := ih (n / 2) (by omega) hdiv
      constructor
      · rw [pow_succ]
        omega
      · rw [pow_succ]
        omega
    · rw [if_neg h2]
      have hn1 : n = 1 := by omega
      subst hn1
      exact ⟨by norm_num, by norm_num⟩

/-- The floor logarithm bracket for `intLog2` on every C `long`. -/
theorem intLog2_bracket (n : Nat) (h0 : 0 < n) (h1 : n < 2 ^ 64) :
    2 ^ intLog2 n ≤ n ∧ n < 2 ^ (intLog2 n + 1) :=
  intLog2Aux_bracket 64 n h0 h1

/-- The driver's address-width check passes exactly for word counts in
`[2, 2^33)`. -/
theorem intLog2_width_ok (m : Nat) (hlo : 2 ≤ m) (hhi : m < 2 ^ 33) :
    ¬ (intLog2 m < 1 ∨ 32 < intLog2 m) := by
  have hb := intLog2_bracket m (by omega) (lt_of_lt_of_le hhi (by norm_num))
  intro h
  rcases h with h | h
  · have hL : intLog2 m = 0 := by omega
    have h2 := hb.2
    rw [hL] at h2
    norm_num at h2
    omega
  · have h1 := hb.1
    have h33 : (2 : Nat) ^ 33 ≤ 2 ^ intLog2 m := Nat.pow_le_pow_right (by omega) (by omega)
    omega

/-- For the power-of-two word sizes the CLI admits, the alignment stage rounds
the size up to the next multiple of `bpw` (the bitmask trick is only correct
for these). -/
theorem sizeAligned_pow2 (bpw n : Nat) (h : bpw = 1 ∨ bpw = 2 ∨ bpw = 4) :
    bpw ∣ sizeAligned bpw n ∧ n ≤ sizeAligned bpw n ∧ sizeAligned bpw n < n + bpw := by
  rcases h with rfl | rfl | rfl
  · have h1 : sizeAligned 1 n = n := by simp [sizeAligned, Nat.mod_one]
    rw [h1]
    exact ⟨Nat.one_dvd _, le_refl _, by omega⟩
  · unfold sizeAligned andNot
    have hm : (n + 1) &&& 1 = (n + 1) % 2 := Nat.and_one_is_mod _
    by_cases h2 : n % 2 = 0
    · rw [if_neg (by omega)]
      refine ⟨by omega, by omega, by omega⟩
    · rw [if_pos (by omega), hm]
      refine ⟨by omega, by omega, by omega⟩
  · unfold sizeAligned andNot
    have hm : (n + 3) &&& 3 = (n + 3) % 4 := by
      have h4 := Nat.and_pow_two_sub_one_eq_mod (n + 3) 2
      norm_num at h4
      exact h4
    by_cases h2 : n % 4 = 0
    · rw [if_neg (by omega)]
      refine ⟨by omega, by omega, by omega⟩
    · rw [if_pos (by omega), hm]
      refine ⟨by omega, by omega, by omega⟩

/-- With whole words, the loop's word count `⌈inSize / bpw⌉` is `inSize / bpw`. -/
theorem numWords_of_dvd (bpw inSize : Nat) (hbpw : 0 < bpw) (hdvd : bpw ∣ inSize) :
    (inSize + bpw - 1) / bpw = inSize / bpw := by
  obtain ⟨q, rfl⟩ := hdvd
  rw [Nat.add_sub_assoc (by omega), Nat.mul_add_div hbpw, Nat.div_eq_of_lt (by omega),
    Nat.mul_div_cancel_left _ hbpw]
  omega

/-- Distinct word slots occupy disjoint byte ranges. -/
theorem mul_add_ne_mul_add (bpw a b i j : Nat) (hbpw : 0 < bpw) (hi : i < bpw) (hj : j < bpw)
    (h : a ≠ b) : bpw * a + i ≠ bpw * b + j := by
  intro heq
  have h1 : (bpw * a + i) / bpw = a := by
    rw [Nat.mul_add_div hbpw, Nat.div_eq_of_lt hi]; omega
  have h2 : (bpw * b + j) / bpw = b := by
    rw [Nat.mul_add_div hbpw, Nat.div_eq_of_lt hj]; omega
  exact h (by rw [← h1, ← h2, heq])

/-- A zero-filled buffer reads zero everywhere. -/
theorem getD_replicate_zero (k m : Nat) : (List.replicate k (0 : Nat)).getD m 0 = 0 := by
  rw [List.getD_eq_getElem?_getD, List.getElem?_replicate]
  split <;> rfl

/-- With no tables, each word is stored back at its own position, so the
transform is the identity on a whole-word buffer of bytes below 256. -/
theorem transform_identity (bpw nab ndb : Nat) (big : Bool) (inSize : Nat) (inData : List Nat)
    (hbpw : 0 < bpw) (hdvd : bpw ∣ inSize) (hlen : inData.length = inSize)
    (hbytes : ∀ j, j < inSize → inData.getD j 0 < 256) :
    swizzleTransform none none bpw nab ndb big inSize inData = inData := by
  have hlenT : (swizzleTransform none none bpw nab ndb big inSize inData).length = inSize := by
    rw [show swizzleTransform none none bpw nab ndb big inSize inData
        = (List.range ((inSize + bpw - 1) / bpw)).foldl
            (transformStep none none bpw nab ndb big inData) (List.replicate inSize 0) from rfl,
      foldl_transformStep_length, List.length_replicate]
  refine List.ext_getElem (by rw [hlenT, hlen]) ?_
  intro j h1 h2
  rw [← List.getD_eq_getElem _ 0 h1, ← List.getD_eq_getElem _ 0 h2]
  have hj : j < inSize := by rw [hlenT] at h1; exact h1
  have hrepr : bpw * (j / bpw) + j % bpw = j := Nat.div_add_mod j bpw
  have himod : j % bpw < bpw := Nat.mod_lt _ hbpw
  obtain ⟨q, hq⟩ := hdvd
  have hwlt : j / bpw < inSize / bpw := by
    rw [hq, Nat.mul_div_cancel_left _ hbpw, Nat.div_lt_iff_lt_mul hbpw, Nat.mul_comm q bpw]
    rw [hq] at hj
    exact hj
  have hwmul : bpw * (j / bpw) + bpw ≤ inSize := by
    have h3 : (j / bpw + 1) * bpw ≤ inSize :=
      (Nat.le_div_iff_mul_le hbpw).mp (Nat.succ_le_of_lt hwlt)
    calc bpw * (j / bpw) + bpw = (j / bpw + 1) * bpw := by ring
      _ ≤ inSize := h3
  have hmem : j / bpw ∈ List.range ((inSize + bpw - 1) / bpw) := by
    rw [numWords_of_dvd bpw inSize hbpw ⟨q, hq⟩, List.mem_range]
    exact hwlt
  have hdisj : ∀ w', w' ∈ List.range ((inSize + bpw - 1) / bpw) → w' ≠ j / bpw →
      ∀ i2 i', i2 < bpw → i' < bpw →
      destAddr none bpw nab (bpw * w') + i' ≠ destAddr none bpw nab (bpw * (j / bpw)) + i2 := by
    intro w' _ hne i2 i' hi2 hi'
    exact mul_add_ne_mul_add bpw w' (j / bpw) i' i2 hbpw hi' hi2 hne
  have hbound : destAddr none bpw nab (bpw * (j / bpw)) + bpw
      ≤ (List.replicate inSize (0 : Nat)).length := by
    show bpw * (j / bpw) + bpw ≤ _
    rw [List.length_replicate]
    omega
  have hfold := foldl_transformStep_getD_eq none none bpw nab ndb big inData _
    (List.replicate inSize 0) (j / bpw) hmem (List.nodup_range _) hdisj hbound (j % bpw) himod
  have hdnone : destAddr none bpw nab (bpw * (j / bpw)) = bpw * (j / bpw) := rfl
  have hperm : permWord none ndb (assembleWord big bpw inData (bpw * (j / bpw)))
      = assembleWord big bpw inData (bpw * (j / bpw)) := rfl
  rw [hdnone, hperm] at hfold
  have hrt := wordByte_assembleWord big bpw inData (bpw * (j / bpw)) (j % bpw) himod
    (fun j2 hj2 => hbytes (bpw * (j / bpw) + j2) (by omega))
  conv_lhs => rw [← hrepr]
  rw [show swizzleTransform none none bpw nab ndb big inSize inData
      = (List.range ((inSize + bpw - 1) / bpw)).foldl
          (transformStep none none bpw nab ndb big inData) (List.replicate inSize 0) from rfl]
  rw [hfold, hrt, hrepr]

/-- C3 (amended): with neither permutation spec supplied, for the power-of-two
word sizes 1, 2 and 4, and for inputs whose aligned size spans at least 2 and
fewer than 2^33 words (the address-width check aborts the run otherwise, even
though no address permutation was requested), the run succeeds and the output
equals the input extended with zero bytes to the next multiple of
`bytesPerWord`, for either byte order; the alignment warning is the only
diagnostic.  For `bytesPerWord = 3` the claim fails: the alignment stage's
bitmask rounding is only correct for powers of two (see the counterexample). -/
theorem c3_identity_amended (input : List Nat) (bpw : Nat) (big : Bool)
    (hpow : bpw = 1 ∨ bpw = 2 ∨ bpw = 4)
    (hbytes : ∀ b ∈ input, b < 256)
    (hlo : 2 * bpw ≤ sizeAligned bpw input.length)
    (hhi : sizeAligned bpw input.length / bpw < 2 ^ 33) :
    swizzleRun { addrBits := none, dataBits := none, bytesPerWord := bpw, bigEndian := big } input
      = Except.ok
          { output := paddedInput input (sizeAligned bpw input.length)
            warnings :=
              if input.length % bpw ≠ 0 then [SwizzleWarning.unalignedSize bpw] else [] } := by
  have hbpw : 0 < bpw := by rcases hpow with rfl | rfl | rfl <;> omega
  obtain ⟨hdvd, hle, hlt⟩ := sizeAligned_pow2 bpw input.length hpow
  have hwords_lo : 2 ≤ sizeAligned bpw input.length / bpw := by
    rw [Nat.le_div_iff_mul_le hbpw]
    exact hlo
  have hwidth := intLog2_width_ok _ hwords_lo hhi
  have hs1 : sizeAfterPow2 false input.length = input.length := by
    simp [sizeAfterPow2]
  have hpadlen : (paddedInput input (sizeAligned bpw input.length)).length
      = sizeAligned bpw input.length := by
    simp [paddedInput]
    omega
  have hpadbytes : ∀ j, j < sizeAligned bpw input.length →
      (paddedInput input (sizeAligned bpw input.length)).getD j 0 < 256 := by
    intro j hj
    by_cases hjn : j < input.length
    · rw [paddedInput, List.getD_append _ _ _ _ hjn, List.getD_eq_getElem _ _ hjn]
      exact hbytes _ (List.getElem_mem hjn)
    · rw [paddedInput, List.getD_append_right _ _ _ _ (by omega), getD_replicate_zero]
      omega
  have hout := transform_identity bpw (intLog2 (sizeAligned bpw input.length / bpw)) (8 * bpw)
    big (sizeAligned bpw input.length) (paddedInput input (sizeAligned bpw input.length))
    hbpw hdvd hpadlen hpadbytes
  unfold swizzleRun
  simp only [Option.isSome_none, hs1]
  rw [if_neg hwidth]
  simp only [Option.map_none', Option.none_bind, Bool.false_eq_true, false_and, if_false,
    Option.elim, List.nil_append, List.append_nil]
  rw [hout]

/-- Witness for the amended C3: a 3-byte input with 2-byte words is zero-padded
to 4 bytes and otherwise copied unchanged. -/
theorem c3_identity_amended_witness :
    swizzleRun { addrBits := none, dataBits := none, bytesPerWord := 2, bigEndian := false }
        [1, 2, 3]
      = Except.ok { output := [1, 2, 3, 0], warnings := [SwizzleWarning.unalignedSize 2] } := by
  rw [c3_identity_amended [1, 2, 3] 2 false (Or.inr (Or.inl rfl)) (by decide) (by decide)
    (by decide)]
  decide

/-- C3 as stated is false on the code.  A 1-byte input with `bytesPerWord = 1`
does not produce a 1-byte identity output: the run aborts on the address-width
check (`log2 1 = 0 < 1`) although no permutation was requested.  And with
`bytesPerWord = 3` an 8-byte input is not extended to the next multiple of 3:
the bitmask alignment leaves the size at 8 (and the C loop then reads and
writes one byte past its 8-byte buffers), so the output is 8 bytes, not the
claimed 9. -/
theorem c3_identity_counterexample :
    swizzleRun { addrBits := none, dataBits := none, bytesPerWord := 1, bigEndian := false } [7]
        = Except.error SwizzleError.addrWidth ∧
      swizzleRun { addrBits := none, dataBits := none, bytesPerWord := 3, bigEndian := false }
          [1, 2, 3, 4, 5, 6, 7, 8]
        = Except.ok { output := [1, 2, 3, 4, 5, 6, 7, 8],
                      warnings := [SwizzleWarning.unalignedSize 3] } := by
  constructor <;> decide

/-! ## Behaviour of the spec parser loop -/

/-- The loop reports an out-of-range error exactly when some remaining token is
out of range; the reported bound is always `count - 1`.  The table, bitmask and
warning state are irrelevant to this outcome. -/
theorem parseBitsLoop_outOfRange_iff (axis : Axis) (count : Nat) :
    ∀ (ts : List Int) (pos : Int) (dest : List Int) (bf : Nat) (dups : List Int),
      (∃ i, (parseBitsLoop axis count ts pos dest bf dups).err
          = some (ParseError.outOfRange axis i ((count : Int) - 1)))
        ↔ ∃ t ∈ ts, t < 0 ∨ (count : Int) ≤ t := by
  intro ts
  induction ts with
  | nil =>
    intro pos dest bf dups
    constructor
    · rintro ⟨i, hi⟩
      by_cases h : pos = 0 <;> simp [parseBitsLoop, h] at hi
    · rintro ⟨t, ht, _⟩
      exact absurd ht (List.not_mem_nil t)
  | cons t rest ih =>
    intro pos dest bf dups
    simp only [parseBitsLoop]
    by_cases hbad : t < 0 ∨ (count : Int) ≤ t
    · rw [if_pos hbad]
      constructor
      · intro _
        exact ⟨t, List.mem_cons_self _ _, hbad⟩
      · intro _
        exact ⟨t, rfl⟩
    · rw [if_neg hbad, ih]
      constructor
      · rintro ⟨t', ht', hb⟩
        exact ⟨t', List.mem_cons_of_mem _ ht', hb⟩
      · rintro ⟨t', ht', hb⟩
        rcases List.mem_cons.mp ht' with rfl | h
        · exact absurd hb hbad
        · exact ⟨t', h, hb⟩

/-- When the loop reports an out-of-range error, the reported index is one of
the tokens and is indeed out of range. -/
theorem parseBitsLoop_outOfRange_mem (axis : Axis) (count : Nat) :
    ∀ (ts : List Int) (pos : Int) (dest : List Int) (bf : Nat) (dups : List Int) (i : Int),
      (parseBitsLoop axis count ts pos dest bf dups).err
          = some (ParseError.outOfRange axis i ((count : Int) - 1)) →
      i ∈ ts ∧ (i < 0 ∨ (count : Int) ≤ i) := by
  intro ts
  induction ts with
  | nil =>
    intro pos dest bf dups i hi
    by_cases h : pos = 0 <;> simp [parseBitsLoop, h] at hi
  | cons t rest ih =>
    intro pos dest bf dups i hi
    simp only [parseBitsLoop] at hi
    by_cases hbad : t < 0 ∨ (count : Int) ≤ t
    · rw [if_pos hbad] at hi
      simp only [Option.some.injEq, ParseError.outOfRange.injEq] at hi
      obtain ⟨-, hti, -⟩ := hi
      subst hti
      exact ⟨List.mem_cons_self _ _, hbad⟩
    · rw [if_neg hbad] at hi
      obtain ⟨hmem, hb⟩ := ih _ _ _ _ i hi
      exact ⟨List.mem_cons_of_mem _ hmem, hb⟩

/-- Positions at or above the counter, or below every remaining write, keep
their value: the guarded store only ever touches `dest[pos - 1]` downwards. -/
theorem parseBitsLoop_table_preserve (axis : Axis) (count : Nat) :
    ∀ (ts : List Int) (pos : Int) (dest : List Int) (bf : Nat) (dups : List Int) (j : Nat),
      (pos ≤ (j : Int) ∨ (j : Int) + ts.length < pos) →
      (parseBitsLoop axis count ts pos dest bf dups).table.getD j 0 = dest.getD j 0 := by
  intro ts
  induction ts with
  | nil =>
    intro pos dest bf dups j _
    rfl
  | cons t rest ih =>
    intro pos dest bf dups j hj
    simp only [parseBitsLoop]
    have hset : (if 0 < pos then dest.set (pos - 1).toNat t else dest).getD j 0
        = dest.getD j 0 := by
      by_cases hp : 0 < pos
      · rw [if_pos hp]
        have hne : (pos - 1).toNat ≠ j := by
          simp only [List.length_cons] at hj
          omega
        rw [List.getD_eq_getElem?_getD, List.getElem?_set_ne hne,
          ← List.getD_eq_getElem?_getD]
      · rw [if_neg hp]
    by_cases hbad : t < 0 ∨ (count : Int) ≤ t
    · rw [if_pos hbad]
      exact hset
    · rw [if_neg hbad]
      rw [ih (pos - 1) _ _ _ j (by simp only [List.length_cons] at hj; omega)]
      exact hset

/-- The loop never changes the table length. -/
theorem parseBitsLoop_table_length (axis : Axis) (count : Nat) :
    ∀ (ts : List Int) (pos : Int) (dest : List Int) (bf : Nat) (dups : List Int),
      (parseBitsLoop axis count ts pos dest bf dups).table.length = dest.length := by
  intro ts
  induction ts with
  | nil => intro pos dest bf dups; rfl
  | cons t rest ih =>
    intro pos dest bf dups
    simp only [parseBitsLoop]
    by_cases hbad : t < 0 ∨ (count : Int) ≤ t
    · rw [if_pos hbad]
      by_cases hp : 0 < pos <;> simp [hp, List.length_set]
    · rw [if_neg hbad, ih]
      by_cases hp : 0 < pos <;> simp [hp, List.length_set]

/-- With in-range tokens, token `k` of the remaining list is stored at
`dest[pos - 1 - k]` and survives the rest of the loop. -/
theorem parseBitsLoop_table_write (axis : Axis) (count : Nat) :
    ∀ (ts : List Int) (pos : Int) (dest : List Int) (bf : Nat) (dups : List Int) (k : Nat),
      (∀ t ∈ ts, 0 ≤ t ∧ t < (count : Int)) →
      k < ts.length → (k : Int) < pos → pos.toNat ≤ dest.length →
      (parseBitsLoop axis count ts pos dest bf dups).table.getD (pos.toNat - 1 - k) 0
        = ts.getD k 0 := by
  intro ts
  induction ts with
  | nil =>
    intro pos dest bf dups k _ hk _ _
    exact absurd hk (by simp)
  | cons t rest ih =>
    intro pos dest bf dups k hin hk hkpos hlen
    have hp : 0 < pos := by omega
    have hbad : ¬ (t < 0 ∨ (count : Int) ≤ t) := by
      have := hin t (List.mem_cons_self _ _)
      omega
    simp only [parseBitsLoop, if_pos hp, if_neg hbad]
    cases k with
    | zero =>
      rw [parseBitsLoop_table_preserve axis count rest (pos - 1) _ _ _ (pos.toNat - 1 - 0)
        (Or.inl (by omega))]
      have hidx : (pos - 1).toNat = pos.toNat - 1 - 0 := by omega
      have hlt : (pos - 1).toNat < dest.length := by omega
      rw [← hidx, List.getD_eq_getElem?_getD, List.getElem?_set_self hlt]
      rfl
    | succ m =>
      have hrw := ih (pos - 1) (dest.set (pos - 1).toNat t) (bf ||| (1 <<< t.toNat))
        (if bf &&& (1 <<< t.toNat) ≠ 0 then t :: dups else dups) m
        (fun t' ht' => hin t' (List.mem_cons_of_mem _ ht'))
        (by simp only [List.length_cons] at hk; omega)
        (by omega)
        (by rw [List.length_set]; omega)
      have hidx : (pos - 1).toNat - 1 - m = pos.toNat - 1 - (m + 1) := by omega
      rw [hidx] at hrw
      exact hrw

/-- With in-range tokens and the counter equal to the number of tokens, the
loop finishes without a fatal error. -/
theorem parseBitsLoop_err_none (axis : Axis) (count : Nat) :
    ∀ (ts : List Int) (pos : Int) (dest : List Int) (bf : Nat) (dups : List Int),
      (∀ t ∈ ts, 0 ≤ t ∧ t < (count : Int)) → pos = ts.length →
      (parseBitsLoop axis count ts pos dest bf dups).err = none := by
  intro ts
  induction ts with
  | nil =>
    intro pos dest bf dups _ hpos
    simp only [List.length_nil, Int.ofNat_zero] at hpos
    simp [parseBitsLoop, hpos]
  | cons t rest ih =>
    intro pos dest bf dups hin hpos
    have hbad : ¬ (t < 0 ∨ (count : Int) ≤ t) := by
      have := hin t (List.mem_cons_self _ _)
      omega
    simp only [parseBitsLoop, if_neg hbad]
    refine ih _ _ _ _ (fun t' ht' => hin t' (List.mem_cons_of_mem _ ht')) ?_
    simp only [List.length_cons] at hpos
    omega

/-- The warning accumulator only grows: the final duplicate list extends the
reversed accumulator. -/
theorem parseBitsLoop_dups_suffix (axis : Axis) (count : Nat) :
    ∀ (ts : List Int) (pos : Int) (dest : List Int) (bf : Nat) (dups : List Int),
      ∃ pre, (parseBitsLoop axis count ts pos dest bf dups).dups = dups.reverse ++ pre := by
  intro ts
  induction ts with
  | nil =>
    intro pos dest bf dups
    exact ⟨[], (List.append_nil _).symm⟩
  | cons t rest ih =>
    intro pos dest bf dups
    simp only [parseBitsLoop]
    by_cases hbad : t < 0 ∨ (count : Int) ≤ t
    · rw [if_pos hbad]
      exact ⟨[], (List.append_nil _).symm⟩
    · rw [if_neg hbad]
      by_cases hdup : bf &&& (1 <<< t.toNat) ≠ 0
      · rw [if_pos hdup]
        obtain ⟨pre, hpre⟩ := ih (pos - 1) (if 0 < pos then dest.set (pos - 1).toNat t else dest)
          (bf ||| (1 <<< t.toNat)) (t :: dups)
        refine ⟨t :: pre, ?_⟩
        rw [hpre, List.reverse_cons, List.append_assoc]
        rfl
      · rw [if_neg hdup]
        exact ih _ _ _ _

/-- A nonempty warning accumulator yields a nonempty final duplicate list. -/
theorem parseBitsLoop_dups_acc_ne (axis : Axis) (count : Nat) (ts : List Int) (pos : Int)
    (dest : List Int) (bf : Nat) (dups : List Int) (h : dups ≠ []) :
    (parseBitsLoop axis count ts pos dest bf dups).dups ≠ [] := by
  obtain ⟨pre, hpre⟩ := parseBitsLoop_dups_suffix axis count ts pos dest bf dups
  rw [hpre]
  intro hcontra
  apply h
  have hlen := congrArg List.length hcontra
  simp only [List.length_append, List.length_reverse, List.length_nil] at hlen
  exact List.eq_nil_of_length_eq_zero (by omega)

/-- With in-range tokens, the loop emits a duplicate warning whenever the
remaining tokens repeat a value, or repeat a value already recorded in the
`bitsFound` bitmask. -/
theorem parseBitsLoop_dups_nonempty (axis : Axis) (count : Nat) :
    ∀ (ts : List Int) (pos : Int) (dest : List Int) (bf : Nat) (dups : List Int),
      (∀ t ∈ ts, 0 ≤ t ∧ t < (count : Int)) →
      (¬ ts.Nodup ∨ ∃ t ∈ ts, bf.testBit t.toNat = true) →
      (parseBitsLoop axis count ts pos dest bf dups).dups ≠ [] := by
  intro ts
  induction ts with
  | nil =>
    intro pos dest bf dups _ hd
    rcases hd with hd | ⟨t, ht, _⟩
    · exact absurd List.nodup_nil hd
    · exact absurd ht (List.not_mem_nil t)
  | cons t rest ih =>
    intro pos dest bf dups hin hd
    have hbad : ¬ (t < 0 ∨ (count : Int) ≤ t) := by
      have := hin t (List.mem_cons_self _ _)
      omega
    simp only [parseBitsLoop, if_neg hbad]
    have hbit : (bf ||| (1 <<< t.toNat)).testBit t.toNat = true := by
      rw [Nat.testBit_lor, Nat.one_shiftLeft, Nat.testBit_two_pow]
      simp
    by_cases hdup : bf &&& (1 <<< t.toNat) ≠ 0
    · rw [if_pos hdup]
      exact parseBitsLoop_dups_acc_ne axis count _ _ _ _ _ (by simp)
    · rw [if_neg hdup]
      have hin' : ∀ t' ∈ rest, 0 ≤ t' ∧ t' < (count : Int) :=
        fun t' ht' => hin t' (List.mem_cons_of_mem _ ht')
      rcases hd with hnd | ⟨t0, ht0, hbit0⟩
      · rw [List.nodup_cons] at hnd
        push_neg at hnd
        by_cases hmem : t ∈ rest
        · exact ih _ _ _ _ hin' (Or.inr ⟨t, hmem, hbit⟩)
        · exact ih _ _ _ _ hin' (Or.inl (hnd hmem))
      · rcases List.mem_cons.mp ht0 with rfl | hmem
        · exfalso
          apply hdup
          rw [Nat.one_shiftLeft, Nat.and_two_pow, hbit0]
          simp [Nat.pow_eq_zero]
        · have hbit0' : (bf ||| (1 <<< t.toNat)).testBit t0.toNat = true := by
            rw [Nat.testBit_lor, hbit0]
            rfl
          exact ih _ _ _ _ hin' (Or.inr ⟨t0, hmem, hbit0'⟩)

/-- C5 as stated is false on the code: parsing the 9-token spec
"8,0,1,2,3,4,5,6,7" against an expected count of 8 does not fail with the
token-count mismatch — the range check fires on the very first token (8, valid
range [0,7]) before the count is ever compared, so the reported error is the
out-of-range one. -/
theorem c5_token_count_counterexample :
    (parseBits Axis.address (specTokens ("8,0,1,2,3,4,5,6,7")) (List.replicate 32 0) 8).err
        = some (ParseError.outOfRange Axis.address 8 7) ∧
      (parseBits Axis.address (specTokens ("8,0,1,2,3,4,5,6,7")) (List.replicate 32 0) 8).err
        ≠ some (ParseError.countMismatch 8 Axis.address 9) := by
  constructor <;> decide

/-- C5 (amended): the spec "8,0,1,2,3,4,5,6,7" with numAddrBits = 8 fails
fatally, but with the out-of-range error for its first token 8 (range [0,7]);
a 9-token spec whose tokens are all in range, such as "7,0,1,2,3,4,5,6,7",
fails with the token-count mismatch reporting the expected count 8 and the 9
tokens actually found. -/
theorem c5_token_count_amended :
    (parseBits Axis.address (specTokens ("8,0,1,2,3,4,5,6,7")) (List.replicate 32 0) 8).err
        = some (ParseError.outOfRange Axis.address 8 7) ∧
      (parseBits Axis.address (specTokens ("7,0,1,2,3,4,5,6,7")) (List.replicate 32 0) 8).err
        = some (ParseError.countMismatch 8 Axis.address 9) := by
  constructor <;> decide

/-- C6 as stated is false on the code: a spec with no out-of-range token can
still fail fatally — the single-token spec "0" against an expected count of 8
aborts with the token-count mismatch even though its token 0 lies in [0,7]. -/
theorem c6_range_check_counterexample :
    (parseBits Axis.address (specTokens ("0")) (List.replicate 32 0) 8).err
        = some (ParseError.countMismatch 8 Axis.address 1) ∧
      (specTokens ("0")).all (fun t => decide (0 ≤ t ∧ t < 8)) = true := by
  constructor <;> decide

/-- C6 (amended): parseBits fails with the out-of-range error exactly when
some token's parsed index is below 0 or at least N; the error reports an
offending token, the axis label and the bound N - 1, and a spec whose tokens
all lie in [0, N-1] never produces this error (though it can still abort with
a token-count mismatch). -/
theorem c6_range_check_amended (axis : Axis) (tokens : List Int) (dest : List Int)
    (count : Nat) :
    ((∃ i, (parseBits axis tokens dest count).err
          = some (ParseError.outOfRange axis i ((count : Int) - 1)))
        ↔ ∃ t ∈ tokens, t < 0 ∨ (count : Int) ≤ t) ∧
      ∀ i, (parseBits axis tokens dest count).err
          = some (ParseError.outOfRange axis i ((count : Int) - 1)) →
        i ∈ tokens ∧ (i < 0 ∨ (count : Int) ≤ i) :=
  ⟨parseBitsLoop_outOfRange_iff axis count tokens count dest 0 [],
   fun i => parseBitsLoop_outOfRange_mem axis count tokens count dest 0 [] i⟩

/-- Witness for the amended C6: the spec "9,0,1,2,3,4,5,6,7" against count 8
reports the error for token 9, and 9 is indeed an out-of-range token of the
spec. -/
theorem c6_range_check_amended_witness :
    (9 : Int) ∈ specTokens ("9,0,1,2,3,4,5,6,7") ∧ ((9 : Int) < 0 ∨ (8 : Int) ≤ 9) :=
  (c6_range_check_amended Axis.address (specTokens ("9,0,1,2,3,4,5,6,7"))
    (List.replicate 32 0) 8).2 9 (by decide)

/-- C7: when an in-range index repeats among exactly N in-range tokens, the
parse finishes without a fatal error, the duplicate-warning list is nonempty
(the bitmask of seen indices detects the repeat), and the full table is built
with token `k` at position `N - 1 - k`; duplicates are never rejected. -/
theorem c7_duplicates_warn (axis : Axis) (tokens : List Int) (count : Nat)
    (hlen : tokens.length = count)
    (hin : ∀ t ∈ tokens, 0 ≤ t ∧ t < (count : Int))
    (hdup : ¬ tokens.Nodup) (hcount : count ≤ 32) :
    (parseBits axis tokens (List.replicate 32 0) count).err = none ∧
      (parseBits axis tokens (List.replicate 32 0) count).dups ≠ [] ∧
      ∀ k, k < count →
        (parseBits axis tokens (List.replicate 32 0) count).table.getD (count - 1 - k) 0
          = tokens.getD k 0 := by
  refine ⟨?_, ?_, ?_⟩
  · exact parseBitsLoop_err_none axis count tokens count _ 0 [] hin (by rw [hlen])
  · exact parseBitsLoop_dups_nonempty axis count tokens count _ 0 [] hin (Or.inl hdup)
  · intro k hk
    have h := parseBitsLoop_table_write axis count tokens count (List.replicate 32 0) 0 [] k
      hin (by omega) (by omega) (by simp; omega)
    simpa using h

/-- Witness for C7: the 5-token data spec "3,3,2,1,0" repeats index 3; the
parse succeeds, warns, and builds the table. -/
theorem c7_duplicates_warn_witness :
    (parseBits Axis.data (specTokens ("3,3,2,1,0")) (List.replicate 32 0) 5).err = none ∧
      (parseBits Axis.data (specTokens ("3,3,2,1,0")) (List.replicate 32 0) 5).dups = [3] ∧
      (parseBits Axis.data (specTokens ("3,3,2,1,0")) (List.replicate 32 0) 5).table.getD
          (5 - 1 - 0) 0
        = (specTokens ("3,3,2,1,0")).getD 0 0 :=
  ⟨(c7_duplicates_warn Axis.data (specTokens ("3,3,2,1,0")) 5 (by decide) (by decide)
      (by decide) (by decide)).1,
   by decide,
   (c7_duplicates_warn Axis.data (specTokens ("3,3,2,1,0")) 5 (by decide) (by decide)
      (by decide) (by decide)).2.2 0 (by decide)⟩

/-- C10: the parser never stores outside `dest[0 .. N-1]`: every table slot at
or above `N`, or below `N - numberOfTokens`, keeps the caller's value — in
particular, when more than N tokens are supplied the stores for the excess
tokens are skipped, because the store is guarded by the decrementing position
counter being positive. -/
theorem c10_no_out_of_range_store (axis : Axis) (tokens : List Int) (dest : List Int)
    (count : Nat) (j : Nat) (h : count ≤ j ∨ j + tokens.length < count) :
    (parseBits axis tokens dest count).table.getD j 0 = dest.getD j 0 := by
  apply parseBitsLoop_table_preserve
  omega

/-- Witness for C10: parsing 10 tokens against count 4 leaves slot 5 of a
6-slot table untouched. -/
theorem c10_no_out_of_range_store_witness :
    (parseBits Axis.address (specTokens ("0,1,2,3,0,1,2,3,0,1")) [9, 9, 9, 9, 9, 9]
        4).table.getD 5 0
      = [9, 9, 9, 9, 9, 9].getD 5 0 :=
  c10_no_out_of_range_store Axis.address (specTokens ("0,1,2,3,0,1,2,3,0,1"))
    [9, 9, 9, 9, 9, 9] 4 5 (by decide)

set_option maxRecDepth 4000 in
/-- C8: the data spec "0,1,2,3,4,5,6,7" against the 8 data bits of a 1-byte
word parses, tokens most significant first, to the table [7,6,5,4,3,2,1,0]; the
gather with that table reverses the bit order of every byte (bit i of the
output is bit 7 - i of the input), and a full driver run with bytesPerWord = 1
maps the input byte 0x01 to 0x80 and 0xF0 to 0x0F. -/
theorem c8_bit_reversal :
    (parseBits Axis.data (specTokens ("0,1,2,3,4,5,6,7")) (List.replicate 32 0) 8).table.take 8
        = [7, 6, 5, 4, 3, 2, 1, 0] ∧
      (∀ b : Fin 256, ∀ i : Fin 8,
        (swizzleWord b [7, 6, 5, 4, 3, 2, 1, 0] 8).testBit i = (b : Nat).testBit (7 - i)) ∧
      swizzleRun
          { addrBits := none, dataBits := some ("0,1,2,3,4,5,6,7"),
            bytesPerWord := 1, bigEndian := false } [1, 240]
        = Except.ok { output := [128, 15], warnings := [] } := by
  refine ⟨by decide, by decide, by decide⟩

/-! ## The power-of-two round-up -/

/-- One smear step doubles the window of source bits each result bit can see. -/
theorem orShift_testBit_iff (x K n : Nat)
    (hx : ∀ i, x.testBit i = true ↔ ∃ j, j < K ∧ n.testBit (j + i) = true) :
    ∀ i, (x ||| (x >>> K)).testBit i = true ↔ ∃ j, j < 2 * K ∧ n.testBit (j + i) = true := by
  intro i
  rw [Nat.testBit_lor, Bool.or_eq_true, Nat.testBit_shiftRight, hx i, hx (K + i)]
  constructor
  · rintro (⟨j, hj, hb⟩ | ⟨j, hj, hb⟩)
    · exact ⟨j, by omega, hb⟩
    · exact ⟨j + K, by omega, by rwa [show j + K + i = j + (K + i) by omega]⟩
  · rintro ⟨j, hj, hb⟩
    by_cases hjK : j < K
    · exact Or.inl ⟨j, hjK, hb⟩
    · exact Or.inr ⟨j - K, by omega, by rwa [show j - K + (K + i) = j + i by omega]⟩

/-- The leading bit of a positive number sits at its floor logarithm. -/
theorem testBit_intLog2 (n : Nat) (h0 : 0 < n) (h64 : n < 2 ^ 64) :
    n.testBit (intLog2 n) = true := by
  obtain ⟨hl, hr⟩ := intLog2_bracket n h0 h64
  rw [Nat.testBit_to_div_mod]
  have hp : (2 : Nat) ^ (intLog2 n + 1) = 2 ^ intLog2 n * 2 := pow_succ 2 _
  have hdiv : n / 2 ^ intLog2 n = 1 :=
    Nat.div_eq_of_lt_le (by omega) (by omega)
  rw [hdiv]
  decide

/-- On sizes below 2^32, the 16-deep bit-smear plus one yields exactly
`2 ^ (⌊log2 n⌋ + 1)`. -/
theorem roundPow2_eq (n : Nat) (h0 : 0 < n) (h32 : n < 2 ^ 32) :
    roundPow2 n = 2 ^ (intLog2 n + 1) := by
  have h64 : n < 2 ^ 64 := lt_of_lt_of_le h32 (by norm_num)
  obtain ⟨hl, hr⟩ := intLog2_bracket n h0 h64
  have hL31 : intLog2 n ≤ 31 := by
    by_contra h
    have : (2 : Nat) ^ 32 ≤ 2 ^ intLog2 n := Nat.pow_le_pow_right (by omega) (by omega)
    omega
  have h0c : ∀ i, n.testBit i = true ↔ ∃ j, j < 1 ∧ n.testBit (j + i) = true := by
    intro i
    constructor
    · intro hb
      exact ⟨0, by omega, by simpa using hb⟩
    · rintro ⟨j, hj, hb⟩
      have hj0 : j = 0 := by omega
      subst hj0
      simpa using hb
  have e1 := orShift_testBit_iff n 1 n h0c
  have e2 := orShift_testBit_iff _ 2 n e1
  have e3 := orShift_testBit_iff _ 4 n e2
  have e4 := orShift_testBit_iff _ 8 n e3
  have e5 := orShift_testBit_iff _ 16 n e4
  have hsmear : ∀ x : Nat,
      (∀ i, x.testBit i = true ↔ ∃ j, j < 32 ∧ n.testBit (j + i) = true) →
      x = 2 ^ (intLog2 n + 1) - 1 := by
    intro x hx
    refine Nat.eq_of_testBit_eq fun i => ?_
    rw [Bool.eq_iff_iff, hx i, Nat.testBit_two_pow_sub_one]
    constructor
    · rintro ⟨j, hj, hb⟩
      have hji : j + i < intLog2 n + 1 := by
        by_contra hge
        have hlt : n < 2 ^ (j + i) :=
          lt_of_lt_of_le hr (Nat.pow_le_pow_right (by omega) (by omega))
        rw [Nat.testBit_eq_false_of_lt hlt] at hb
        cases hb
      simp only [decide_eq_true_eq]
      omega
    · intro hi
      simp only [decide_eq_true_eq] at hi
      refine ⟨intLog2 n - i, by omega, ?_⟩
      rw [show intLog2 n - i + i = intLog2 n by omega]
      exact testBit_intLog2 n h0 h64
  have hval := hsmear _ e5
  show _ + 1 = 2 ^ (intLog2 n + 1)
  rw [hval]
  have hpos : 0 < (2 : Nat) ^ (intLog2 n + 1) := Nat.pos_pow_of_pos _ (by omega)
  omega

/-- A power of two shares no bit with its predecessor. -/
theorem two_pow_and_sub_one (k : Nat) : (2 ^ k) &&& (2 ^ k - 1) = 0 := by
  refine Nat.eq_of_testBit_eq fun i => ?_
  rw [Nat.testBit_and, Nat.testBit_two_pow, Nat.testBit_two_pow_sub_one, Nat.zero_testBit]
  by_cases h : k = i
  · subst h
    simp
  · simp [h]

/-- C9 as stated is false on the code for huge images: the bit-smear stops
after a shift of 16, so it fills only 32 bits.  For a file of `2^33 + 2^32`
bytes (address permutation requested) the stage yields `2^34 - 1`, which is not
a power of two at all, rather than the next power of two `2^34`. -/
theorem c9_pow2_padding_counterexample :
    sizeAfterPow2 true (2 ^ 33 + 2 ^ 32) = 2 ^ 34 - 1 ∧
      sizeAfterPow2 true (2 ^ 33 + 2 ^ 32) ≠ 2 ^ 34 ∧
      ¬ 2 ∣ sizeAfterPow2 true (2 ^ 33 + 2 ^ 32) := by
  refine ⟨by decide, by decide, by decide⟩

/-- C9 (amended): for file sizes below 2^32 (the reach of the 16-deep
bit-smear), an address permutation request on a non-power-of-two size rounds
the working size up to the exact next power of two — `2^(⌊log2 size⌋ + 1)`,
strictly above the size and no larger than any power of two that fits it — and
a 100-byte input yields 128; the bytes added beyond the original input are
zero before the transform; the non-power-of-two warning is emitted on every
successful run padded this way; and with no address permutation the
power-of-two stage leaves the file size unchanged. -/
theorem c9_pow2_padding_amended :
    (∀ n : Nat, 0 < n → n < 2 ^ 32 → n &&& (n - 1) ≠ 0 →
        sizeAfterPow2 true n = 2 ^ (intLog2 n + 1) ∧
          n < sizeAfterPow2 true n ∧
          ∀ k, n ≤ 2 ^ k → sizeAfterPow2 true n ≤ 2 ^ k) ∧
      (∀ n : Nat, sizeAfterPow2 false n = n) ∧
      sizeAfterPow2 true 100 = 128 ∧
      (∀ (input : List Nat) (inSize j : Nat), input.length ≤ j →
        (paddedInput input inSize).getD j 0 = 0) ∧
      (∀ (opts : swizzle_t) (input : List Nat) (r : SwizzleOutput),
        swizzleRun opts input = Except.ok r → opts.addrBits.isSome = true →
        input.length &&& (input.length - 1) ≠ 0 →
        SwizzleWarning.nonPowerOfTwoSize input.length ∈ r.warnings) := by
  refine ⟨?_, ?_, by decide, ?_, ?_⟩
  · intro n h0 h32 hnp
    have h64 : n < 2 ^ 64 := lt_of_lt_of_le h32 (by norm_num)
    obtain ⟨hl, hr⟩ := intLog2_bracket n h0 h64
    have hs : sizeAfterPow2 true n = 2 ^ (intLog2 n + 1) := by
      rw [sizeAfterPow2, if_pos ⟨rfl, hnp⟩]
      exact roundPow2_eq n h0 h32
    refine ⟨hs, by omega, ?_⟩
    intro k hk
    rw [hs]
    by_cases hkL : intLog2 n + 1 ≤ k
    · exact Nat.pow_le_pow_right (by omega) hkL
    · exfalso
      have h1 : (2 : Nat) ^ k ≤ 2 ^ intLog2 n := Nat.pow_le_pow_right (by omega) (by omega)
      have h2 : n = 2 ^ k := by omega
      apply hnp
      rw [h2]
      exact two_pow_and_sub_one k
  · intro n
    simp [sizeAfterPow2]
  · intro input inSize j hj
    by_cases hlt : j < input.length
    · omega
    · rw [paddedInput, List.getD_append_right _ _ _ _ (by omega), getD_replicate_zero]
  · intro opts input r hrun hsome hnp
    simp only [swizzleRun] at hrun
    split at hrun
    · exact absurd hrun (by simp)
    · split at hrun
      · exact absurd hrun (by simp)
      · exact absurd hrun (by simp)
      · simp only [Except.ok.injEq] at hrun
        rw [← hrun]
        simp [hsome, hnp]

/-- Witness for the amended C9: at 100 bytes the stage gives the next power of
two, and a 5-byte run with a 3-bit address permutation emits the warning. -/
theorem c9_pow2_padding_amended_witness :
    (sizeAfterPow2 true 100 = 2 ^ (intLog2 100 + 1) ∧ 100 < sizeAfterPow2 true 100) ∧
      SwizzleWarning.nonPowerOfTwoSize 5 ∈
        (SwizzleOutput.mk [1, 1, 1, 1, 1, 0, 0, 0]
          [SwizzleWarning.nonPowerOfTwoSize 5]).warnings := by
  constructor
  · have h := c9_pow2_padding_amended.1 100 (by decide) (by decide) (by decide)
    exact ⟨h.1, h.2.1⟩
  · exact c9_pow2_padding_amended.2.2.2.2
      { addrBits := some ("2,1,0"), dataBits := none, bytesPerWord := 1, bigEndian := false }
      [1, 1, 1, 1, 1] _ (by decide) (by decide) (by decide)
